import Mathlib

namespace Mph
set_option maxRecDepth 10000

/-- A key is a finite byte sequence, modelled as a list of byte values. -/
abbrev Key := List Nat

/-- Modelled from the spec: the seeded hash primitive lives in murmur.go, which is
not part of src/. Spec section 4.1 requires only a pure, deterministic,
seed-parameterized, well-mixing 32-bit hash over byte sequences, naming a
Murmur-family mix as one acceptable choice. We model it as a seeded FNV-1a byte
fold followed by the Murmur3 32-bit finalizer; all arithmetic is mod 2^32. -/
def fmix32 (x : Nat) : Nat :=
  let h0 := x % 4294967296
  let h1 := ((h0 ^^^ (h0 >>> 16)) * 2246822507) % 4294967296
  let h2 := ((h1 ^^^ (h1 >>> 13)) * 3266489909) % 4294967296
  h2 ^^^ (h2 >>> 16)

/-- Modelled from the spec: one byte-mixing step of the seeded hash. -/
def hashStep (h b : Nat) : Nat :=
  ((h ^^^ (b % 256)) * 16777619) % 4294967296

/-- Modelled from the spec: `hash(seed, data) -> unsigned 32-bit integer`. -/
def murmurHash (seed : Nat) (data : Key) : Nat :=
  fmix32 (data.foldl hashStep ((seed % 4294967296) ^^^ 2166136261))

/-- mph.go lines 74-80: the doubling loop of nextPow2, starting from i. The Go
loop carries no fuel; since i ≥ 1 doubles each step, the loop terminates after
at most n iterations, so running it on fuel n is exactly the Go loop
(nextPow2Go_stable below proves the result no longer depends on the fuel). -/
def nextPow2Go (n : Nat) : Nat → Nat → Nat
  | 0, i => i
  | fuel + 1, i => if n ≤ i then i else nextPow2Go n fuel (2 * i)

/-- mph.go lines 74-80: smallest power of two that is ≥ n (and ≥ 1). -/
def nextPow2 (n : Nat) : Nat := nextPow2Go n n 1

/-- mph.go lines 10-16: the Table structure. -/
structure Table where
  keys : List Key
  level0 : List Nat
  level0Mask : Nat
  level1 : List Nat
  level1Mask : Nat
deriving DecidableEq

/-- mph.go lines 91-94: a non-empty level-0 bucket, holding its original index n
and the list of key indices that hashed to it. -/
structure indexBucket where
  n : Nat
  vals : List Nat
deriving DecidableEq

/-- mph.go lines 30-34: distribute key index i into sparseBuckets by the
seed-0 hash masked with level0Mask. -/
def fillBuckets (mask0 : Nat) : Nat → List Key → List (List Nat) → List (List Nat)
  | _, [], sb => sb
  | i, k :: rest, sb =>
    let b := (murmurHash 0 k) &&& mask0
    fillBuckets mask0 (i + 1) rest (sb.set b (sb.getD b [] ++ [i]))

/-- mph.go lines 35-40: collect the non-empty buckets in ascending index order. -/
def collectBuckets : Nat → List (List Nat) → List indexBucket
  | _, [] => []
  | n, vals :: rest =>
    if vals.length > 0 then ⟨n, vals⟩ :: collectBuckets (n + 1) rest
    else collectBuckets (n + 1) rest

/-- mph.go line 99: bySize.Less compares buckets by size, larger first. -/
def bySizeLess (a b : indexBucket) : Bool := b.vals.length < a.vals.length

/-- Insertion step of the sort modelling mph.go line 41. -/
def insertBySize (x : indexBucket) : List indexBucket → List indexBucket
  | [] => [x]
  | y :: ys => if bySizeLess x y then x :: y :: ys else y :: insertBySize x ys

/-- mph.go line 41: sort.Sort(bySize(buckets)). Go sort.Sort is comparison
sorting by bySize.Less with unspecified (unstable) order among equal elements;
we model it as a stable insertion sort over the same comparator, which agrees
with Go whenever sort.Sort happens to be stable (it is for fewer than 12
buckets, where Go uses insertion sort). -/
def sortBySize : List indexBucket → List indexBucket
  | [] => []
  | x :: xs => insertBySize x (sortBySize xs)

/-- mph.go lines 48-61: one seed trial for one bucket. Walks the bucket's key
indices; a key whose slot is already occupied aborts the trial (result none).
Occupancy marks made by the trial are rolled back by the caller simply by
retaining its own occ (the Go code resets exactly the tmpOcc entries, which
restores occ to its value at trial entry), but level1 writes made before the
abort are kept, exactly as in the Go code, which never rolls level1 back. -/
def placeVals (ks : List Key) (seed mask1 : Nat) :
    List Nat → List Bool → List Nat → Option (List Bool) × List Nat
  | [], occ, lv1 => (some occ, lv1)
  | i :: rest, occ, lv1 =>
    let slot := (murmurHash seed (ks.getD i [])) &&& mask1
    if occ.getD slot false then (none, lv1)
    else placeVals ks seed mask1 rest (occ.set slot true) (lv1.set slot (i % 4294967296))

/-- mph.go lines 46-57: the trySeed retry loop, searching seeds seed, seed+1, ...
with explicit fuel (the Go loop is unbounded; spec section 7 records that the
seed search has no termination guarantee). On failure the original occ is
reused (rollback) while the partially written level1 is threaded through. -/
def findSeed (ks : List Key) (mask1 : Nat) (vals : List Nat) (occ : List Bool) :
    Nat → Nat → List Nat → Option (Nat × List Bool × List Nat)
  | 0, _, _ => none
  | fuel + 1, seed, lv1 =>
    match placeVals ks seed mask1 vals occ lv1 with
    | (some occ2, lv1') => some (seed, occ2, lv1')
    | (none, lv1') => findSeed ks mask1 vals occ fuel (seed + 1) lv1'

/-- mph.go lines 45-63: process the sorted buckets in order, committing each
bucket's winning seed into level0 (as uint32) and its slot assignments into
level1. -/
def assignBuckets (ks : List Key) (mask1 fuel : Nat) :
    List indexBucket → List Bool → List Nat → List Nat → Option (List Nat × List Nat)
  | [], _, lv0, lv1 => some (lv0, lv1)
  | b :: rest, occ, lv0, lv1 =>
    match findSeed ks mask1 b.vals occ fuel 0 lv1 with
    | none => none
    | some (seed, occ2, lv1') =>
      assignBuckets ks mask1 fuel rest occ2 (lv0.set b.n (seed % 4294967296)) lv1'

/-- mph.go line 22: level0 size. Note the Go expression len(keys)/4 is floor
division. -/
def level0Size (ks : List Key) : Nat := nextPow2 (ks.length / 4)

/-- mph.go line 24: level1 size. -/
def level1Size (ks : List Key) : Nat := nextPow2 ks.length

/-- mph.go line 23. -/
def level0MaskOf (ks : List Key) : Nat := level0Size ks - 1

/-- mph.go line 25. -/
def level1MaskOf (ks : List Key) : Nat := level1Size ks - 1

/-- mph.go lines 26-34: the filled sparse bucket array. -/
def sparseOf (ks : List Key) : List (List Nat) :=
  fillBuckets (level0MaskOf ks) 0 ks (List.replicate (level0Size ks) [])

/-- mph.go lines 35-40. -/
def bucketsOf (ks : List Key) : List indexBucket := collectBuckets 0 (sparseOf ks)

/-- mph.go line 41. -/
def sortedOf (ks : List Key) : List indexBucket := sortBySize (bucketsOf ks)

/-- mph.go lines 20-72: Build, with explicit fuel bounding each bucket's seed
search (none models the Go program never returning). The key pool copy of lines
29-34 is the identity on immutable values. -/
def build (fuel : Nat) (ks : List Key) : Option Table :=
  match assignBuckets ks (level1MaskOf ks) fuel (sortedOf ks)
      (List.replicate (level1Size ks) false)
      (List.replicate (level0Size ks) 0)
      (List.replicate (level1Size ks) 0) with
  | none => none
  | some (lv0, lv1) => some ⟨ks, lv0, level0MaskOf ks, lv1, level1MaskOf ks⟩

/-- mph.go lines 83-89: Lookup. Each Go slice indexing step is modelled with
the partial indexing operator; a none result models an index-out-of-range
panic. The final comparison is byte equality of the query with keys[n]. -/
def lookup (t : Table) (s : Key) : Option (Nat × Bool) :=
  match t.level0[(murmurHash 0 s) &&& t.level0Mask]? with
  | none => none
  | some seed =>
    match t.level1[(murmurHash seed s) &&& t.level1Mask]? with
    | none => none
    | some c =>
      match t.keys[c]? with
      | none => none
      | some k => some (c, s == k)

/-- The level-1 slot that Lookup inspects for a query key. -/
def pathSlot (t : Table) (s : Key) : Nat :=
  (murmurHash (t.level0.getD ((murmurHash 0 s) &&& t.level0Mask) 0) s) &&& t.level1Mask

/-- Concrete example input: the three keys "a", "b", "c". -/
def ks3 : List Key := [[97], [98], [99]]

/-- The table build 64 ks3 produces (checked by the kernel in the theorems
below). -/
def t3 : Table := ⟨[[97], [98], [99]], [0], 0, [0, 2, 1, 0], 3⟩

/-- Concrete example input: five distinct single-byte keys. -/
def ks5 : List Key := [[97], [98], [99], [100], [101]]

/-- The table build 64 ks5 produces. -/
def t5 : Table := ⟨[[97], [98], [99], [100], [101]], [2], 0, [3, 0, 2, 2, 0, 4, 1, 0], 7⟩

/-- Concrete example input: three keys whose first seed trial fails after a
partial write, leaving a stale level1 entry behind. -/
def ksStale : List Key := [[60], [90], [121]]

/-- The table build 64 ksStale produces: the keys end on slots 3, 2, 0, while
slot 1 still holds the value 1 written during the discarded seed-0 trial. -/
def tStale : Table := ⟨[[60], [90], [121]], [4], 0, [2, 1, 1, 0], 3⟩

/-- The table build produces from the empty key list. -/
def tEmpty : Table := ⟨[], [0], 0, [0], 0⟩

/-- Fuel irrelevance of the doubling loop: one extra step of fuel changes
nothing once the fuel dominates the remaining distance to n. -/
theorem nextPow2Go_succ (n : Nat) : ∀ (fuel i : Nat), 0 < i → n ≤ fuel + i →
    nextPow2Go n (fuel + 1) i = nextPow2Go n fuel i := by
  intro fuel
  induction fuel with
  | zero =>
    intro i hi hn
    simp only [nextPow2Go]
    rw [if_pos (by omega)]
  | succ fuel ih =>
    intro i hi hn
    by_cases h : n ≤ i
    · simp only [nextPow2Go]
      rw [if_pos h, if_pos h]
    · conv_lhs => simp only [nextPow2Go]
      conv_rhs => simp only [nextPow2Go]
      rw [if_neg h, if_neg h]
      exact ih (2 * i) (by omega) (by omega)

/-- The fuel n used by nextPow2 is enough: any further fuel gives the same
result, so nextPow2Go n n 1 is exactly the unbounded Go loop of lines 74-80. -/
theorem nextPow2Go_stable (n fuel d i : Nat) (hi : 0 < i) (hf : n ≤ fuel + i) :
    nextPow2Go n (fuel + d) i = nextPow2Go n fuel i := by
  induction d with
  | zero => rfl
  | succ d ih =>
    have h1 : fuel + (d + 1) = (fuel + d) + 1 := by omega
    rw [h1, nextPow2Go_succ n (fuel + d) i hi (by omega), ih]

/-- The doubling loop result dominates both n and the start value. -/
theorem nextPow2Go_ge (n : Nat) : ∀ (fuel i : Nat), 0 < i → n ≤ fuel + i →
    n ≤ nextPow2Go n fuel i ∧ i ≤ nextPow2Go n fuel i := by
  intro fuel
  induction fuel with
  | zero =>
    intro i hi hn
    simp only [nextPow2Go]
    omega
  | succ fuel ih =>
    intro i hi hn
    simp only [nextPow2Go]
    split
    · omega
    · have h2 := ih (2 * i) (by omega) (by omega)
      omega

/-- The doubling loop keeps the running value a power of two. -/
theorem nextPow2Go_pow2 (n : Nat) : ∀ (fuel i m : Nat), i = 2 ^ m →
    ∃ m2, nextPow2Go n fuel i = 2 ^ m2 := by
  intro fuel
  induction fuel with
  | zero =>
    intro i m him
    exact ⟨m, by simpa [nextPow2Go] using him⟩
  | succ fuel ih =>
    intro i m him
    simp only [nextPow2Go]
    split
    · exact ⟨m, him⟩
    · exact ih (2 * i) (m + 1) (by subst him; rw [Nat.pow_succ, Nat.mul_comm])

theorem nextPow2_ge (n : Nat) : n ≤ nextPow2 n :=
  (nextPow2Go_ge n n 1 (by omega) (by omega)).1

theorem nextPow2_pos (n : Nat) : 1 ≤ nextPow2 n :=
  (nextPow2Go_ge n n 1 (by omega) (by omega)).2

theorem nextPow2_pow2 (n : Nat) : ∃ m, nextPow2 n = 2 ^ m :=
  nextPow2Go_pow2 n n 1 0 rfl

/-- Reading back the cell just written, when the index is in range. -/
theorem getD_set_self {α : Type} (l : List α) (i : Nat) (a d : α) (h : i < l.length) :
    (l.set i a).getD i d = a := by
  induction l generalizing i with
  | nil => simp at h
  | cons x xs ih =>
    cases i with
    | zero => simp [List.set_cons_zero]
    | succ j =>
      rw [List.set_cons_succ, List.getD_cons_succ]
      exact ih j (by simpa using h)

/-- Writing one cell leaves every other cell unchanged. -/
theorem getD_set_ne {α : Type} (l : List α) (i j : Nat) (a d : α) (h : i ≠ j) :
    (l.set i a).getD j d = l.getD j d := by
  induction l generalizing i j with
  | nil => simp
  | cons x xs ih =>
    cases i with
    | zero =>
      cases j with
      | zero => exact absurd rfl h
      | succ j2 => rw [List.set_cons_zero, List.getD_cons_succ, List.getD_cons_succ]
    | succ i2 =>
      cases j with
      | zero => rw [List.set_cons_succ, List.getD_cons_zero, List.getD_cons_zero]
      | succ j2 =>
        rw [List.set_cons_succ, List.getD_cons_succ, List.getD_cons_succ]
        exact ih i2 j2 (by omega)

/-- Every cell of a replicated list reads as the replicated value. -/
theorem getD_replicate {α : Type} (m j : Nat) (d : α) :
    (List.replicate m d).getD j d = d := by
  induction m generalizing j with
  | zero => simp
  | succ m2 ih =>
    cases j with
    | zero => rw [List.replicate_succ, List.getD_cons_zero]
    | succ j2 => rw [List.replicate_succ, List.getD_cons_succ]; exact ih j2

/-- In-range partial indexing agrees with getD. -/
theorem getElem?_eq_some_getD {α : Type} (l : List α) (j : Nat) (d : α) (h : j < l.length) :
    l[j]? = some (l.getD j d) := by
  rw [List.getElem?_eq_getElem h, List.getD_eq_getElem l d h]

/-- Masking with a low bit mask keeps the value under the mask bound. -/
theorem and_mask_lt (x m : Nat) : x &&& m < m + 1 :=
  Nat.lt_succ_of_le Nat.and_le_right

/-- The modelled hash only depends on the seed mod 2^32, so storing a seed
truncated to uint32 preserves the hash path. -/
theorem murmurHash_mod (seed : Nat) (data : Key) :
    murmurHash (seed % 4294967296) data = murmurHash seed data := by
  unfold murmurHash
  have h : seed % 4294967296 % 4294967296 = seed % 4294967296 := by omega
  rw [h]

/-- Properties of a successful seed trial (mph.go lines 48-61, no collision):
lengths are preserved, previously occupied slots keep their occupancy and their
level1 values, every bucket member lands on an occupied slot storing its own
index, and every level1 entry is an old entry or a bucket member's index. -/
theorem placeVals_some (ks : List Key) (seed mask1 : Nat) :
    ∀ (vals : List Nat) (occ : List Bool) (lv1 : List Nat) (occ2 : List Bool) (lv1' : List Nat),
    placeVals ks seed mask1 vals occ lv1 = (some occ2, lv1') →
    occ2.length = occ.length ∧ lv1'.length = lv1.length ∧
    (∀ j, occ.getD j false = true → occ2.getD j false = true ∧ lv1'.getD j 0 = lv1.getD j 0) ∧
    (mask1 + 1 = lv1.length → occ.length = lv1.length → ∀ i ∈ vals,
      occ2.getD ((murmurHash seed (ks.getD i [])) &&& mask1) false = true ∧
      lv1'.getD ((murmurHash seed (ks.getD i [])) &&& mask1) 0 = i % 4294967296) ∧
    (∀ j, lv1'.getD j 0 = lv1.getD j 0 ∨ ∃ i, i ∈ vals ∧ lv1'.getD j 0 = i % 4294967296) := by
  intro vals
  induction vals with
  | nil =>
    intro occ lv1 occ2 lv1' h
    simp only [placeVals, Prod.mk.injEq, Option.some.injEq] at h
    obtain ⟨h1, h2⟩ := h
    subst h1; subst h2
    exact ⟨rfl, rfl, fun j hj => ⟨hj, rfl⟩,
      fun _ _ i hi => absurd hi (List.not_mem_nil i), fun j => Or.inl rfl⟩
  | cons i rest ih =>
    intro occ lv1 occ2 lv1' h
    simp only [placeVals] at h
    by_cases hocc : occ.getD ((murmurHash seed (ks.getD i [])) &&& mask1) false = true
    · rw [if_pos hocc] at h
      exact absurd h (by simp)
    · rw [if_neg hocc] at h
      obtain ⟨l1, l2, pres, mem, ent⟩ := ih _ _ _ _ h
      rw [List.length_set] at l1
      rw [List.length_set] at l2
      refine ⟨l1, l2, ?_, ?_, ?_⟩
      · intro j hj
        have hne : ((murmurHash seed (ks.getD i [])) &&& mask1) ≠ j := by
          intro he; rw [he] at hocc; exact hocc hj
        have h3 := pres j (by rw [getD_set_ne _ _ _ _ _ hne]; exact hj)
        rw [getD_set_ne _ _ _ _ _ hne] at h3
        exact h3
      · intro hm ho i2 hi2
        rcases List.mem_cons.mp hi2 with he | hr
        · subst he
          have hlt : ((murmurHash seed (ks.getD i2 [])) &&& mask1) < lv1.length := by
            have := and_mask_lt (murmurHash seed (ks.getD i2 [])) mask1
            omega
          have h3 := pres ((murmurHash seed (ks.getD i2 [])) &&& mask1)
            (by rw [getD_set_self _ _ _ _ (by omega)])
          rw [getD_set_self _ _ _ _ hlt] at h3
          exact h3
        · exact mem (by rw [List.length_set]; exact hm)
            (by rw [List.length_set, List.length_set]; exact ho) i2 hr
      · intro j
        rcases ent j with he | ⟨i2, hi2, he⟩
        · by_cases hj : ((murmurHash seed (ks.getD i [])) &&& mask1) = j
          · by_cases hb : j < lv1.length
            · subst hj
              rw [getD_set_self _ _ _ _ hb] at he
              exact Or.inr ⟨i, List.mem_cons_self i rest, he⟩
            · refine Or.inl (he.trans ?_)
              rw [List.getD_eq_default _ _ (by rw [List.length_set]; omega),
                List.getD_eq_default _ _ (by omega)]
          · rw [getD_set_ne _ _ _ _ _ hj] at he
            exact Or.inl he
        · exact Or.inr ⟨i2, List.mem_cons_of_mem i hi2, he⟩

/-- Properties of a failed seed trial (mph.go lines 51-56): the trial rolls its
occupancy marks back (the caller keeps its own occ), but the level1 writes made
before the collision persist; still, slots that were occupied on entry are
never written, and every entry is an old entry or a bucket member's index. -/
theorem placeVals_none (ks : List Key) (seed mask1 : Nat) :
    ∀ (vals : List Nat) (occ : List Bool) (lv1 lv1' : List Nat),
    placeVals ks seed mask1 vals occ lv1 = (none, lv1') →
    lv1'.length = lv1.length ∧
    (∀ j, occ.getD j false = true → lv1'.getD j 0 = lv1.getD j 0) ∧
    (∀ j, lv1'.getD j 0 = lv1.getD j 0 ∨ ∃ i, i ∈ vals ∧ lv1'.getD j 0 = i % 4294967296) := by
  intro vals
  induction vals with
  | nil =>
    intro occ lv1 lv1' h
    exact absurd h (by simp [placeVals])
  | cons i rest ih =>
    intro occ lv1 lv1' h
    simp only [placeVals] at h
    by_cases hocc : occ.getD ((murmurHash seed (ks.getD i [])) &&& mask1) false = true
    · rw [if_pos hocc] at h
      simp only [Prod.mk.injEq] at h
      rw [← h.2]
      exact ⟨rfl, fun j _ => rfl, fun j => Or.inl rfl⟩
    · rw [if_neg hocc] at h
      obtain ⟨l2, pres, ent⟩ := ih _ _ _ h
      rw [List.length_set] at l2
      refine ⟨l2, ?_, ?_⟩
      · intro j hj
        have hne : ((murmurHash seed (ks.getD i [])) &&& mask1) ≠ j := by
          intro he; rw [he] at hocc; exact hocc hj
        have h3 := pres j (by rw [getD_set_ne _ _ _ _ _ hne]; exact hj)
        rw [getD_set_ne _ _ _ _ _ hne] at h3
        exact h3
      · intro j
        rcases ent j with he | ⟨i2, hi2, he⟩
        · by_cases hj : ((murmurHash seed (ks.getD i [])) &&& mask1) = j
          · by_cases hb : j < lv1.length
            · subst hj
              rw [getD_set_self _ _ _ _ hb] at he
              exact Or.inr ⟨i, List.mem_cons_self i rest, he⟩
            · refine Or.inl (he.trans ?_)
              rw [List.getD_eq_default _ _ (by rw [List.length_set]; omega),
                List.getD_eq_default _ _ (by omega)]
          · rw [getD_set_ne _ _ _ _ _ hj] at he
            exact Or.inl he
        · exact Or.inr ⟨i2, List.mem_cons_of_mem i hi2, he⟩

/-- Any successful seed search factors as a pile of failed trials (which only
touch slots unoccupied at entry) followed by one successful trial run against
the caller's own occ: the Go rollback of lines 52-54 restores exactly the occ
the trial started from. -/
theorem findSeed_some (ks : List Key) (mask1 : Nat) (vals : List Nat) (occ : List Bool) :
    ∀ (fuel seed0 : Nat) (lv1 : List Nat) (seed : Nat) (occ2 : List Bool) (lv1' : List Nat),
    findSeed ks mask1 vals occ fuel seed0 lv1 = some (seed, occ2, lv1') →
    ∃ lv1m, lv1m.length = lv1.length ∧
      (∀ j, occ.getD j false = true → lv1m.getD j 0 = lv1.getD j 0) ∧
      (∀ j, lv1m.getD j 0 = lv1.getD j 0 ∨ ∃ i, i ∈ vals ∧ lv1m.getD j 0 = i % 4294967296) ∧
      placeVals ks seed mask1 vals occ lv1m = (some occ2, lv1') := by
  intro fuel
  induction fuel with
  | zero =>
    intro seed0 lv1 seed occ2 lv1' h
    exact absurd h (by simp [findSeed])
  | succ fuel ih =>
    intro seed0 lv1 seed occ2 lv1' h
    rcases hp : placeVals ks seed0 mask1 vals occ lv1 with ⟨r, lv1mid⟩
    cases r with
    | some o =>
      simp only [findSeed, hp, Option.some.injEq, Prod.mk.injEq] at h
      obtain ⟨hs, ho2, hl⟩ := h
      subst hs; subst ho2; subst hl
      exact ⟨lv1, rfl, fun j _ => rfl, fun j => Or.inl rfl, hp⟩
    | none =>
      simp only [findSeed, hp] at h
      obtain ⟨lv1m, hlen, hpres, hent, hplace⟩ := ih (seed0 + 1) lv1mid seed occ2 lv1' h
      obtain ⟨l2, pres, ent⟩ := placeVals_none ks seed0 mask1 vals occ lv1 lv1mid hp
      refine ⟨lv1m, hlen.trans l2, ?_, ?_, hplace⟩
      · intro j hj
        exact (hpres j hj).trans (pres j hj)
      · intro j
        rcases hent j with he | hr
        · rcases ent j with he2 | hr2
          · exact Or.inl (he.trans he2)
          · rw [he]
            exact Or.inr hr2
        · exact Or.inr hr

/-- Combined properties of a successful seed search relative to the state at
bucket entry. -/
theorem findSeed_props (ks : List Key) (mask1 : Nat) (vals : List Nat) (occ : List Bool)
    (fuel seed0 : Nat) (lv1 : List Nat) (seed : Nat) (occ2 : List Bool) (lv1' : List Nat)
    (h : findSeed ks mask1 vals occ fuel seed0 lv1 = some (seed, occ2, lv1'))
    (hm : mask1 + 1 = lv1.length) (ho : occ.length = lv1.length) :
    occ2.length = occ.length ∧ lv1'.length = lv1.length ∧
    (∀ j, occ.getD j false = true → occ2.getD j false = true ∧ lv1'.getD j 0 = lv1.getD j 0) ∧
    (∀ i ∈ vals,
      occ2.getD ((murmurHash seed (ks.getD i [])) &&& mask1) false = true ∧
      lv1'.getD ((murmurHash seed (ks.getD i [])) &&& mask1) 0 = i % 4294967296) ∧
    (∀ j, lv1'.getD j 0 = lv1.getD j 0 ∨ ∃ i, i ∈ vals ∧ lv1'.getD j 0 = i % 4294967296) := by
  obtain ⟨lv1m, hlen, hpres, hent, hp⟩ :=
    findSeed_some ks mask1 vals occ fuel seed0 lv1 seed occ2 lv1' h
  obtain ⟨l1, l2, pres, mem, ent⟩ := placeVals_some ks seed mask1 vals occ lv1m occ2 lv1' hp
  refine ⟨l1, l2.trans hlen, ?_, ?_, ?_⟩
  · intro j hj
    obtain ⟨ha, hb⟩ := pres j hj
    exact ⟨ha, hb.trans (hpres j hj)⟩
  · exact mem (by rw [hlen]; exact hm) (by rw [hlen]; exact ho)
  · intro j
    rcases ent j with he | hr
    · rcases hent j with he2 | hr2
      · exact Or.inl (he.trans he2)
      · rw [he]
        exact Or.inr hr2
    · exact Or.inr hr

/-- Main loop invariant of mph.go lines 45-63. Processing a list of buckets
with pairwise distinct bucket indices (all within level0) preserves lengths,
never rewrites level0 cells of other buckets, never rewrites level1 cells that
were occupied at entry, commits for every processed bucket member i the value
i mod 2^32 at the slot determined by the bucket's stored seed, and only writes
level1 values drawn from the processed buckets' members. -/
theorem assignBuckets_some (ks : List Key) (mask1 fuel : Nat) :
    ∀ (todo : List indexBucket) (occ : List Bool) (lv0 lv1 lv0' lv1' : List Nat),
    assignBuckets ks mask1 fuel todo occ lv0 lv1 = some (lv0', lv1') →
    mask1 + 1 = lv1.length →
    occ.length = lv1.length →
    (todo.map indexBucket.n).Nodup →
    (∀ b ∈ todo, b.n < lv0.length) →
    (lv0'.length = lv0.length ∧ lv1'.length = lv1.length) ∧
    (∀ m, m ∉ todo.map indexBucket.n → lv0'.getD m 0 = lv0.getD m 0) ∧
    (∀ j, occ.getD j false = true → lv1'.getD j 0 = lv1.getD j 0) ∧
    (∀ b ∈ todo, ∀ i ∈ b.vals,
      lv1'.getD ((murmurHash (lv0'.getD b.n 0) (ks.getD i [])) &&& mask1) 0 = i % 4294967296) ∧
    (∀ j, lv1'.getD j 0 = lv1.getD j 0 ∨
      ∃ b ∈ todo, ∃ i ∈ b.vals, lv1'.getD j 0 = i % 4294967296) := by
  intro todo
  induction todo with
  | nil =>
    intro occ lv0 lv1 lv0' lv1' h hm ho hnd hbd
    simp only [assignBuckets, Option.some.injEq, Prod.mk.injEq] at h
    obtain ⟨h1, h2⟩ := h
    subst h1; subst h2
    exact ⟨⟨rfl, rfl⟩, fun m _ => rfl, fun j _ => rfl,
      fun b hb => absurd hb (List.not_mem_nil b), fun j => Or.inl rfl⟩
  | cons b rest ih =>
    intro occ lv0 lv1 lv0' lv1' h hm ho hnd hbd
    rcases hf : findSeed ks mask1 b.vals occ fuel 0 lv1 with _ | ⟨seed, occ2, lv1mid⟩
    · simp only [assignBuckets, hf] at h
      exact Option.noConfusion h
    · simp only [assignBuckets, hf] at h
      obtain ⟨fl1, fl2, fpres, fmem, fent⟩ :=
        findSeed_props ks mask1 b.vals occ fuel 0 lv1 seed occ2 lv1mid hf hm ho
      rw [List.map_cons] at hnd
      obtain ⟨hnotin, hndrest⟩ := List.nodup_cons.mp hnd
      obtain ⟨⟨ihl0, ihl1⟩, ihlv0, ihpres, ihmem, ihent⟩ := ih occ2 _ lv1mid lv0' lv1' h
        (by rw [fl2]; exact hm) (by rw [fl1, fl2]; exact ho) hndrest
        (fun b2 hb2 => by rw [List.length_set]; exact hbd b2 (List.mem_cons_of_mem b hb2))
      have hseed : lv0'.getD b.n 0 = seed % 4294967296 := by
        rw [ihlv0 b.n hnotin]
        exact getD_set_self lv0 b.n _ 0 (hbd b (List.mem_cons_self b rest))
      refine ⟨⟨by rw [ihl0, List.length_set], ihl1.trans fl2⟩, ?_, ?_, ?_, ?_⟩
      · intro m hm2
        rw [List.map_cons, List.mem_cons] at hm2
        push_neg at hm2
        rw [ihlv0 m hm2.2]
        exact getD_set_ne lv0 b.n m _ 0 (fun he => hm2.1 he.symm)
      · intro j hj
        obtain ⟨ho2, hv⟩ := fpres j hj
        exact (ihpres j ho2).trans hv
      · intro b2 hb2 i hi
        rcases List.mem_cons.mp hb2 with he | hr
        · subst he
          rw [hseed, murmurHash_mod]
          obtain ⟨hocc2, hval⟩ := fmem i hi
          exact (ihpres _ hocc2).trans hval
        · exact ihmem b2 hr i hi
      · intro j
        rcases ihent j with he | ⟨b2, hb2, i, hi, hv⟩
        · rcases fent j with he2 | ⟨i, hi, hv⟩
          · exact Or.inl (he.trans he2)
          · exact Or.inr ⟨b, List.mem_cons_self b rest, i, hi, he.trans hv⟩
        · exact Or.inr ⟨b2, List.mem_cons_of_mem b hb2, i, hi, hv⟩

/-- The bucket-filling pass of lines 30-34 does not change the array length. -/
theorem fillBuckets_length (mask0 : Nat) :
    ∀ (rest : List Key) (i0 : Nat) (sb : List (List Nat)),
    (fillBuckets mask0 i0 rest sb).length = sb.length := by
  intro rest
  induction rest with
  | nil => intro i0 sb; rfl
  | cons k rest ih =>
    intro i0 sb
    simp only [fillBuckets]
    rw [ih, List.length_set]

/-- Bucket filling only appends: members of a bucket stay in that bucket. -/
theorem fillBuckets_preserve (mask0 : Nat) :
    ∀ (rest : List Key) (i0 : Nat) (sb : List (List Nat)) (j x : Nat),
    x ∈ sb.getD j [] → x ∈ (fillBuckets mask0 i0 rest sb).getD j [] := by
  intro rest
  induction rest with
  | nil => intro i0 sb j x hx; exact hx
  | cons k rest ih =>
    intro i0 sb j x hx
    simp only [fillBuckets]
    apply ih
    by_cases hj : ((murmurHash 0 k) &&& mask0) = j
    · subst hj
      by_cases hb : ((murmurHash 0 k) &&& mask0) < sb.length
      · rw [getD_set_self _ _ _ _ hb]
        exact List.mem_append.mpr (Or.inl hx)
      · rw [List.getD_eq_default _ _ (by omega)] at hx
        exact absurd hx (List.not_mem_nil x)
    · rw [getD_set_ne _ _ _ _ _ hj]
      exact hx

/-- Key number i0 + t lands in the bucket selected by the seed-0 hash of the
t-th remaining key, as in lines 30-33. -/
theorem fillBuckets_mem (mask0 : Nat) :
    ∀ (rest : List Key) (i0 : Nat) (sb : List (List Nat)) (t : Nat),
    t < rest.length → mask0 < sb.length →
    (i0 + t) ∈ (fillBuckets mask0 i0 rest sb).getD ((murmurHash 0 (rest.getD t [])) &&& mask0) [] := by
  intro rest
  induction rest with
  | nil => intro i0 sb t ht; simp at ht
  | cons k rest ih =>
    intro i0 sb t ht hm
    cases t with
    | zero =>
      simp only [List.getD_cons_zero]
      simp only [fillBuckets]
      apply fillBuckets_preserve
      have hb : ((murmurHash 0 k) &&& mask0) < sb.length := by
        have := and_mask_lt (murmurHash 0 k) mask0
        omega
      rw [getD_set_self _ _ _ _ hb]
      simp
    | succ t2 =>
      simp only [List.getD_cons_succ]
      simp only [fillBuckets]
      have harith : i0 + (t2 + 1) = (i0 + 1) + t2 := by omega
      rw [harith]
      exact ih (i0 + 1) _ t2 (by simpa using ht) (by rw [List.length_set]; exact hm)

/-- Every member of every bucket is a position of the remaining key list. -/
theorem fillBuckets_range (mask0 : Nat) :
    ∀ (rest : List Key) (i0 : Nat) (sb : List (List Nat)) (j x : Nat),
    x ∈ (fillBuckets mask0 i0 rest sb).getD j [] →
    x ∈ sb.getD j [] ∨ (i0 ≤ x ∧ x < i0 + rest.length) := by
  intro rest
  induction rest with
  | nil => intro i0 sb j x hx; exact Or.inl hx
  | cons k rest ih =>
    intro i0 sb j x hx
    simp only [fillBuckets] at hx
    rcases ih (i0 + 1) _ j x hx with hin | hrange
    · by_cases hj : ((murmurHash 0 k) &&& mask0) = j
      · subst hj
        by_cases hb : ((murmurHash 0 k) &&& mask0) < sb.length
        · rw [getD_set_self _ _ _ _ hb] at hin
          rcases List.mem_append.mp hin with h1 | h2
          · exact Or.inl h1
          · simp only [List.mem_singleton] at h2
            subst h2
            refine Or.inr ⟨le_refl _, by simp only [List.length_cons]; omega⟩
        · rw [List.getD_eq_default _ _ (by rw [List.length_set]; omega)] at hin
          exact absurd hin (List.not_mem_nil x)
      · rw [getD_set_ne _ _ _ _ _ hj] at hin
        exact Or.inl hin
    · refine Or.inr ⟨by omega, ?_⟩
      simp only [List.length_cons]
      omega

/-- Every collected bucket (lines 35-40) carries its original index, which is
in range, and its non-empty member list from the sparse array. -/
theorem collectBuckets_sub :
    ∀ (sb : List (List Nat)) (n0 : Nat) (b : indexBucket), b ∈ collectBuckets n0 sb →
    n0 ≤ b.n ∧ b.n < n0 + sb.length ∧ b.vals = sb.getD (b.n - n0) [] ∧ b.vals ≠ [] := by
  intro sb
  induction sb with
  | nil => intro n0 b hb; exact absurd hb (List.not_mem_nil b)
  | cons vals rest ih =>
    intro n0 b hb
    simp only [collectBuckets] at hb
    by_cases hv : vals.length > 0
    · rw [if_pos hv] at hb
      rcases List.mem_cons.mp hb with he | hr
      · subst he
        refine ⟨le_refl _, by simp only [List.length_cons]; omega, ?_, ?_⟩
        · simp
        · intro hne
          have h5 : vals = [] := hne
          rw [h5] at hv
          simp at hv
      · obtain ⟨h1, h2, h3, h4⟩ := ih (n0 + 1) b hr
        refine ⟨by omega, by simp only [List.length_cons]; omega, ?_, h4⟩
        rw [h3]
        have harith : b.n - n0 = (b.n - (n0 + 1)) + 1 := by omega
        rw [harith, List.getD_cons_succ]
    · rw [if_neg hv] at hb
      obtain ⟨h1, h2, h3, h4⟩ := ih (n0 + 1) b hb
      refine ⟨by omega, by simp only [List.length_cons]; omega, ?_, h4⟩
      rw [h3]
      have harith : b.n - n0 = (b.n - (n0 + 1)) + 1 := by omega
      rw [harith, List.getD_cons_succ]

/-- Conversely, every in-range non-empty sparse bucket is collected. -/
theorem collectBuckets_mem :
    ∀ (sb : List (List Nat)) (n0 j : Nat), j < sb.length → sb.getD j [] ≠ [] →
    (⟨n0 + j, sb.getD j []⟩ : indexBucket) ∈ collectBuckets n0 sb := by
  intro sb
  induction sb with
  | nil => intro n0 j hj; simp at hj
  | cons vals rest ih =>
    intro n0 j hj hne
    cases j with
    | zero =>
      simp only [List.getD_cons_zero] at hne ⊢
      simp only [collectBuckets]
      rw [if_pos (List.length_pos.mpr hne)]
      have harith : n0 + 0 = n0 := by omega
      rw [harith]
      exact List.mem_cons_self _ _
    | succ j2 =>
      simp only [List.getD_cons_succ] at hne ⊢
      simp only [collectBuckets]
      have harith : n0 + (j2 + 1) = (n0 + 1) + j2 := by omega
      rw [harith]
      have hmem := ih (n0 + 1) j2 (by simpa using hj) hne
      split
      · exact List.mem_cons_of_mem _ hmem
      · exact hmem

/-- Collected bucket indices are pairwise distinct (they ascend with the scan
of lines 36-40). -/
theorem collectBuckets_nodup :
    ∀ (sb : List (List Nat)) (n0 : Nat), ((collectBuckets n0 sb).map indexBucket.n).Nodup := by
  intro sb
  induction sb with
  | nil => intro n0; simp [collectBuckets]
  | cons vals rest ih =>
    intro n0
    simp only [collectBuckets]
    split
    · rw [List.map_cons]
      refine List.nodup_cons.mpr ⟨?_, ih (n0 + 1)⟩
      intro hmem
      rw [List.mem_map] at hmem
      obtain ⟨b, hb, he⟩ := hmem
      have h1 := (collectBuckets_sub rest (n0 + 1) b hb).1
      have h2 : b.n = n0 := he
      omega
    · exact ih (n0 + 1)

/-- Inserting into the sorted list is a permutation of consing. -/
theorem insertBySize_perm (x : indexBucket) :
    ∀ (l : List indexBucket), (insertBySize x l).Perm (x :: l) := by
  intro l
  induction l with
  | nil => exact List.Perm.refl _
  | cons y ys ih =>
    simp only [insertBySize]
    split
    · exact List.Perm.refl _
    · exact (ih.cons y).trans (List.Perm.swap x y ys)

/-- The modelled sort of line 41 permutes the bucket list. -/
theorem sortBySize_perm : ∀ (l : List indexBucket), (sortBySize l).Perm l := by
  intro l
  induction l with
  | nil => exact List.Perm.refl _
  | cons x xs ih =>
    simp only [sortBySize]
    exact (insertBySize_perm x (sortBySize xs)).trans (ih.cons x)

theorem level0Mask_succ (ks : List Key) : level0MaskOf ks + 1 = level0Size ks := by
  have h := nextPow2_pos (ks.length / 4)
  unfold level0MaskOf level0Size
  unfold level0Size at h
  omega

theorem level1Mask_succ (ks : List Key) : level1MaskOf ks + 1 = level1Size ks := by
  have h := nextPow2_pos ks.length
  unfold level1MaskOf level1Size
  unfold level1Size at h
  omega

theorem sparseOf_length (ks : List Key) : (sparseOf ks).length = level0Size ks := by
  unfold sparseOf
  rw [fillBuckets_length, List.length_replicate]

theorem sortedOf_mem_iff (ks : List Key) (b : indexBucket) :
    b ∈ sortedOf ks ↔ b ∈ bucketsOf ks :=
  (sortBySize_perm (bucketsOf ks)).mem_iff

theorem sortedOf_nodup (ks : List Key) : ((sortedOf ks).map indexBucket.n).Nodup :=
  (((sortBySize_perm (bucketsOf ks)).map indexBucket.n).nodup_iff).mpr
    (collectBuckets_nodup (sparseOf ks) 0)

theorem sortedOf_bounds (ks : List Key) (b : indexBucket) (hb : b ∈ sortedOf ks) :
    b.n < level0Size ks ∧ b.vals = (sparseOf ks).getD b.n [] ∧ b.vals ≠ [] := by
  have hb2 := (sortedOf_mem_iff ks b).mp hb
  obtain ⟨h1, h2, h3, h4⟩ := collectBuckets_sub (sparseOf ks) 0 b hb2
  rw [sparseOf_length] at h2
  refine ⟨by omega, ?_, h4⟩
  rw [h3]
  simp

/-- The key at position i belongs to the sorted bucket carrying its level-0
hash index. -/
theorem sortedOf_key_mem (ks : List Key) (i : Nat) (hi : i < ks.length) :
    ∃ b ∈ sortedOf ks,
      b.n = ((murmurHash 0 (ks.getD i [])) &&& level0MaskOf ks) ∧ i ∈ b.vals := by
  have hmask : level0MaskOf ks < (List.replicate (level0Size ks) ([] : List Nat)).length := by
    rw [List.length_replicate]
    have h2 := level0Mask_succ ks
    omega
  have hmem : i ∈ (sparseOf ks).getD ((murmurHash 0 (ks.getD i [])) &&& level0MaskOf ks) [] := by
    have h2 := fillBuckets_mem (level0MaskOf ks) ks 0
      (List.replicate (level0Size ks) []) i hi hmask
    simpa using h2
  have hne : (sparseOf ks).getD ((murmurHash 0 (ks.getD i [])) &&& level0MaskOf ks) [] ≠ [] := by
    intro he
    rw [he] at hmem
    exact List.not_mem_nil i hmem
  have hlt : ((murmurHash 0 (ks.getD i [])) &&& level0MaskOf ks) < (sparseOf ks).length := by
    rw [sparseOf_length]
    have h1 := and_mask_lt (murmurHash 0 (ks.getD i [])) (level0MaskOf ks)
    have h2 := level0Mask_succ ks
    omega
  have hcoll := collectBuckets_mem (sparseOf ks) 0 _ hlt hne
  refine ⟨⟨0 + ((murmurHash 0 (ks.getD i [])) &&& level0MaskOf ks),
    (sparseOf ks).getD ((murmurHash 0 (ks.getD i [])) &&& level0MaskOf ks) []⟩,
    (sortedOf_mem_iff ks _).mpr hcoll, by simp, hmem⟩

/-- Destructuring a successful build into its assignBuckets run. -/
theorem build_some (fuel : Nat) (ks : List Key) (t : Table) (hb : build fuel ks = some t) :
    ∃ lv0 lv1, assignBuckets ks (level1MaskOf ks) fuel (sortedOf ks)
        (List.replicate (level1Size ks) false)
        (List.replicate (level0Size ks) 0)
        (List.replicate (level1Size ks) 0) = some (lv0, lv1) ∧
      t = ⟨ks, lv0, level0MaskOf ks, lv1, level1MaskOf ks⟩ := by
  unfold build at hb
  rcases h : assignBuckets ks (level1MaskOf ks) fuel (sortedOf ks)
      (List.replicate (level1Size ks) false)
      (List.replicate (level0Size ks) 0)
      (List.replicate (level1Size ks) 0) with _ | ⟨lv0, lv1⟩
  · simp only [h] at hb
    exact Option.noConfusion hb
  · simp only [h, Option.some.injEq] at hb
    exact ⟨lv0, lv1, rfl, hb.symm⟩

/-- Master structural facts about any table produced by build: field values,
array lengths, the provenance of level1 entries (default zero or a key
position mod 2^32), and the commit equation level1[pathSlot key_i] = i mod
2^32 for every input position i. -/
theorem build_props (fuel : Nat) (ks : List Key) (t : Table) (hb : build fuel ks = some t) :
    t.keys = ks ∧
    t.level0Mask = level0MaskOf ks ∧ t.level1Mask = level1MaskOf ks ∧
    t.level0.length = level0Size ks ∧ t.level1.length = level1Size ks ∧
    (∀ j, t.level1.getD j 0 = 0 ∨ ∃ i, i < ks.length ∧ t.level1.getD j 0 = i % 4294967296) ∧
    (∀ i, i < ks.length → t.level1.getD (pathSlot t (ks.getD i [])) 0 = i % 4294967296) := by
  obtain ⟨lv0, lv1, h, ht⟩ := build_some fuel ks t hb
  subst ht
  have hm : level1MaskOf ks + 1 = (List.replicate (level1Size ks) (0 : Nat)).length := by
    rw [List.length_replicate]
    exact level1Mask_succ ks
  have ho : (List.replicate (level1Size ks) false).length =
      (List.replicate (level1Size ks) (0 : Nat)).length := by
    rw [List.length_replicate, List.length_replicate]
  obtain ⟨⟨hl0, hl1⟩, hlv0, hpres, hmem, hent⟩ := assignBuckets_some ks (level1MaskOf ks) fuel
    (sortedOf ks) _ _ _ lv0 lv1 h hm ho (sortedOf_nodup ks)
    (fun b hbm => by rw [List.length_replicate]; exact (sortedOf_bounds ks b hbm).1)
  rw [List.length_replicate] at hl0
  rw [List.length_replicate] at hl1
  refine ⟨rfl, rfl, rfl, hl0, hl1, ?_, ?_⟩
  · intro j
    rcases hent j with he | ⟨b, hbm, i, hiv, he⟩
    · rw [getD_replicate] at he
      exact Or.inl he
    · obtain ⟨hbn, hvals, hvne⟩ := sortedOf_bounds ks b hbm
      rw [hvals] at hiv
      rcases fillBuckets_range (level0MaskOf ks) ks 0
          (List.replicate (level0Size ks) []) b.n i hiv with hin | hrange
      · rw [getD_replicate] at hin
        exact absurd hin (List.not_mem_nil i)
      · exact Or.inr ⟨i, by omega, he⟩
  · intro i hi
    obtain ⟨b, hbm, hbn, hiv⟩ := sortedOf_key_mem ks i hi
    have h2 := hmem b hbm i hiv
    rw [hbn] at h2
    simpa [pathSlot] using h2

/-- On any table built from at least one key, lookup never hits an
out-of-range index: it returns the candidate stored at the query's path slot
(always a valid key position) together with the byte-equality verdict against
the key stored there. -/
theorem lookup_built (fuel : Nat) (ks : List Key) (t : Table) (hb : build fuel ks = some t)
    (hne : ks ≠ []) (z : Key) :
    t.level1.getD (pathSlot t z) 0 < ks.length ∧
    lookup t z = some (t.level1.getD (pathSlot t z) 0,
      z == ks.getD (t.level1.getD (pathSlot t z) 0) []) := by
  obtain ⟨hkeys, hm0, hm1, hL0, hL1, hent, hpath⟩ := build_props fuel ks t hb
  have hn : 0 < ks.length := List.length_pos.mpr hne
  have hc : t.level1.getD (pathSlot t z) 0 < ks.length := by
    rcases hent (pathSlot t z) with he | ⟨i, hi, he⟩
    · omega
    · have h2 := Nat.mod_le i 4294967296
      omega
  refine ⟨hc, ?_⟩
  have hi0 : ((murmurHash 0 z) &&& t.level0Mask) < t.level0.length := by
    rw [hm0, hL0]
    have h1 := and_mask_lt (murmurHash 0 z) (level0MaskOf ks)
    have h2 := level0Mask_succ ks
    omega
  have hi1 : ((murmurHash (t.level0.getD ((murmurHash 0 z) &&& t.level0Mask) 0) z) &&&
      t.level1Mask) < t.level1.length := by
    rw [hm1, hL1]
    have h1 := and_mask_lt
      (murmurHash (t.level0.getD ((murmurHash 0 z) &&& t.level0Mask) 0) z) (level1MaskOf ks)
    have h2 := level1Mask_succ ks
    omega
  have hck : t.level1.getD ((murmurHash (t.level0.getD ((murmurHash 0 z) &&& t.level0Mask) 0) z)
      &&& t.level1Mask) 0 < t.keys.length := by
    rw [hkeys]
    exact hc
  unfold lookup
  rw [getElem?_eq_some_getD t.level0 _ 0 hi0]
  simp only []
  rw [getElem?_eq_some_getD t.level1 _ 0 hi1]
  simp only []
  rw [getElem?_eq_some_getD t.keys _ [] hck]
  simp only [Option.some.injEq, Prod.mk.injEq]
  exact ⟨rfl, by rw [hkeys]; rfl⟩

/-- Lookup of the key at input position i follows the committed path and
returns exactly (i, true). -/
theorem lookup_member (fuel : Nat) (ks : List Key) (t : Table) (hb : build fuel ks = some t)
    (hsz : ks.length ≤ 4294967296) (i : Nat) (hi : i < ks.length) :
    t.level1.getD (pathSlot t (ks.getD i [])) 0 = i ∧
    lookup t (ks.getD i []) = some (i, true) := by
  obtain ⟨hkeys, hm0, hm1, hL0, hL1, hent, hpath⟩ := build_props fuel ks t hb
  have hmod : i % 4294967296 = i := Nat.mod_eq_of_lt (by omega)
  have hslot : t.level1.getD (pathSlot t (ks.getD i [])) 0 = i := by
    rw [hpath i hi, hmod]
  have hne : ks ≠ [] := by
    intro he
    rw [he] at hi
    simp at hi
  obtain ⟨hc, hl⟩ := lookup_built fuel ks t hb hne (ks.getD i [])
  refine ⟨hslot, ?_⟩
  rw [hl, hslot]
  simp

/-- Whenever lookup returns at all, the returned boolean is the byte equality
of the query against the key stored at the returned index. -/
theorem lookup_found_mem (t : Table) (z : Key) (c : Nat) (f : Bool)
    (h : lookup t z = some (c, f)) : ∃ k, t.keys[c]? = some k ∧ f = (z == k) := by
  unfold lookup at h
  rcases h0 : t.level0[(murmurHash 0 z) &&& t.level0Mask]? with _ | seed
  · simp only [h0] at h
    exact Option.noConfusion h
  · simp only [h0] at h
    rcases h1 : t.level1[(murmurHash seed z) &&& t.level1Mask]? with _ | c2
    · simp only [h1] at h
      exact Option.noConfusion h
    · simp only [h1] at h
      rcases h2 : t.keys[c2]? with _ | k
      · simp only [h2] at h
        exact Option.noConfusion h
      · simp only [h2, Option.some.injEq, Prod.mk.injEq] at h
        obtain ⟨hc2, hf⟩ := h
        subst hc2
        exact ⟨k, h2, hf.symm⟩

/-- Shared helper: a query that is not byte-equal to any stored key can never
receive found = true from lookup, because the verdict is the byte equality
against the key stored at the returned index. -/
theorem lookup_no_false_positive (t : Table) (z : Key) (hz : z ∉ t.keys)
    (c : Nat) (f : Bool) (h : lookup t z = some (c, f)) : f = false := by
  obtain ⟨k, hk, hf⟩ := lookup_found_mem t z c f h
  have hlt : c < t.keys.length := by
    by_contra hge
    rw [List.getElem?_eq_none (by omega)] at hk
    exact Option.noConfusion hk
  rw [List.getElem?_eq_getElem hlt] at hk
  have hkmem : k ∈ t.keys := by
    rw [← Option.some.inj hk]
    exact List.getElem_mem hlt
  have hne : z ≠ k := fun he => hz (he ▸ hkmem)
  rw [hf]
  exact beq_eq_false_iff_ne.mpr hne

/-- Claim C1: for every list of pairwise distinct keys, after a successful
Build (the fuel hypothesis renders the unbounded Go seed search), the key at
each input position i satisfies the two-level path equation — with i0 =
hash(0,k) masked by level0Mask, seed = level0[i0], i1 = hash(seed,k) masked by
level1Mask, level1[i1] = i — and Lookup of that key returns (i, true), the
stored key keys[i] being the key itself. The bound on the key count reflects
the uint32 truncation of stored positions. -/
theorem build_lookup_member (fuel : Nat) (ks : List Key) (t : Table) (i : Nat)
    (_hnd : ks.Nodup) (hb : build fuel ks = some t) (hsz : ks.length ≤ 4294967296)
    (hi : i < ks.length) :
    t.level1.getD ((murmurHash (t.level0.getD ((murmurHash 0 (ks.getD i [])) &&& t.level0Mask) 0)
      (ks.getD i [])) &&& t.level1Mask) 0 = i ∧
    lookup t (ks.getD i []) = some (i, true) ∧
    t.keys.getD i [] = ks.getD i [] := by
  obtain ⟨hslot, hlook⟩ := lookup_member fuel ks t hb hsz i hi
  have hkeys := (build_props fuel ks t hb).1
  exact ⟨by simpa [pathSlot] using hslot, hlook, by rw [hkeys]⟩

/-- Witness for C1: the three-key table, queried at position 0. -/
theorem build_lookup_member_witness :
    ks3.Nodup ∧ build 64 ks3 = some t3 ∧ lookup t3 [97] = some (0, true) :=
  ⟨by decide, by decide,
    (build_lookup_member 64 ks3 t3 0 (by decide) (by decide) (by decide) (by decide)).2.1⟩

/-- Claim C2: after a successful Build over pairwise distinct keys, the list
of indices Lookup returns across the input keys is exactly 0, 1, ..., n-1 in
input order; in particular, as a multiset it is the range 0..n-1 with each
index occurring exactly once — no two keys share an index and no index is
skipped. -/
theorem build_lookup_bijection (fuel : Nat) (ks : List Key) (t : Table)
    (_hnd : ks.Nodup) (hb : build fuel ks = some t) (hsz : ks.length ≤ 4294967296) :
    ks.map (fun k => ((lookup t k).getD (0, false)).1) = List.range ks.length ∧
    (↑(ks.map (fun k => ((lookup t k).getD (0, false)).1)) : Multiset Nat) =
      ↑(List.range ks.length) := by
  have hmap : ks.map (fun k => ((lookup t k).getD (0, false)).1) = List.range ks.length := by
    apply List.ext_getElem
    · rw [List.length_map, List.length_range]
    · intro j h1 h2
      rw [List.getElem_map, List.getElem_range]
      have hj : j < ks.length := by simpa using h1
      have hlook := (lookup_member fuel ks t hb hsz j hj).2
      have hk : ks[j] = ks.getD j [] := (List.getD_eq_getElem ks [] hj).symm
      rw [hk, hlook]
      rfl
  exact ⟨hmap, by rw [hmap]⟩

/-- Witness for C2: the three-key table realizes the full range 0, 1, 2. -/
theorem build_lookup_bijection_witness :
    ks3.map (fun k => ((lookup t3 k).getD (0, false)).1) = List.range 3 :=
  (build_lookup_bijection 64 ks3 t3 (by decide) (by decide) (by decide)).1

/-- Claim C3: Build of the empty key list succeeds with the minimum-size
table (level0 and level1 both of length 1), but Lookup on that table then
dereferences keys[0] in an empty key pool — an index-out-of-range panic in Go,
modelled here as lookup returning none — instead of returning found = false
as the spec prescribes for every query on the empty-built table. -/
theorem lookup_empty_build_panics :
    build 1 ([] : List Key) = some tEmpty ∧ lookup tEmpty [97] = none := by
  exact ⟨by decide, by decide⟩

/-- Claim C4 counterexample: for the empty key set, the query "z" is not a
member, yet Lookup does not return found = false: it dereferences keys[0] out
of range (modelled: none). -/
theorem lookup_absent_empty_counterexample :
    build 1 ([] : List Key) = some tEmpty ∧ ([122] : Key) ∉ ([] : List Key) ∧
    lookup tEmpty [122] = none :=
  ⟨by decide, by decide, by decide⟩

/-- Claim C4 amended: for every successful Build and every query key z not
byte-equal to any input key, any answer Lookup returns carries found = false,
and when the input list is non-empty Lookup does return such an answer; on the
empty input Lookup panics instead of answering (see the counterexample). -/
theorem lookup_absent_not_found (fuel : Nat) (ks : List Key) (t : Table) (z : Key)
    (hb : build fuel ks = some t) (hz : z ∉ ks) :
    (∀ c f, lookup t z = some (c, f) → f = false) ∧
    (ks ≠ [] → ∃ c, lookup t z = some (c, false)) := by
  have hkeys := (build_props fuel ks t hb).1
  constructor
  · intro c f h
    exact lookup_no_false_positive t z (by rw [hkeys]; exact hz) c f h
  · intro hne
    obtain ⟨hc, hl⟩ := lookup_built fuel ks t hb hne z
    refine ⟨t.level1.getD (pathSlot t z) 0, ?_⟩
    rw [hl]
    have hmem2 : ks.getD (t.level1.getD (pathSlot t z) 0) [] ∈ ks := by
      rw [List.getD_eq_getElem ks [] hc]
      exact List.getElem_mem hc
    have hzz : z ≠ ks.getD (t.level1.getD (pathSlot t z) 0) [] := fun he => hz (he ▸ hmem2)
    rw [beq_eq_false_iff_ne.mpr hzz]

/-- Witness for C4: querying "z" against the three-key table. -/
theorem lookup_absent_not_found_witness :
    ∃ c, lookup t3 [122] = some (c, false) :=
  (lookup_absent_not_found 64 ks3 t3 [122] (by decide) (by decide)).2 (by decide)

/-- Claim C5 counterexample: building from the three distinct keys 60, 90, 121
commits them to level1 slots 3, 2 and 0, so slot 1 is assigned to no key; yet
level1[1] holds the stale value 1 written during a discarded seed trial rather
than the default 0 — failed trials roll back only their occupancy marks, never
their level1 writes. -/
theorem stale_level1_entry :
    build 64 ksStale = some tStale ∧ ksStale.Nodup ∧
    pathSlot tStale [60] = 3 ∧ pathSlot tStale [90] = 2 ∧ pathSlot tStale [121] = 0 ∧
    tStale.level1.getD 1 0 = 1 :=
  ⟨by decide, by decide, by decide, by decide, by decide, by decide⟩

/-- Claim C5 amended: after a successful Build on pairwise distinct keys,
distinct keys occupy distinct level1 slots, and a never-inserted key is never
reported found (byte equality rejects any slot it reaches); failed seed trials
do discard all their occupancy marks, but their tentative level1 writes
persist, so an unassigned slot may retain a stale index instead of the default
value (see the counterexample). -/
theorem level1_distinct_slots (fuel : Nat) (ks : List Key) (t : Table)
    (_hnd : ks.Nodup) (hb : build fuel ks = some t) (hsz : ks.length ≤ 4294967296) :
    (∀ i j, i < ks.length → j < ks.length → i ≠ j →
      pathSlot t (ks.getD i []) ≠ pathSlot t (ks.getD j [])) ∧
    (∀ z, z ∉ ks → ∀ c f, lookup t z = some (c, f) → f = false) := by
  have hkeys := (build_props fuel ks t hb).1
  constructor
  · intro i j hi hj hij he
    have h1 := (lookup_member fuel ks t hb hsz i hi).1
    have h2 := (lookup_member fuel ks t hb hsz j hj).1
    rw [he] at h1
    omega
  · intro z hz c f h
    exact lookup_no_false_positive t z (by rw [hkeys]; exact hz) c f h

/-- Witness for C5: the first two keys of the three-key table land on
different level1 slots. -/
theorem level1_distinct_slots_witness :
    pathSlot t3 [97] ≠ pathSlot t3 [98] :=
  (level1_distinct_slots 64 ks3 t3 (by decide) (by decide) (by decide)).1 0 1
    (by decide) (by decide) (by decide)

/-- Claim C6 counterexample: with five distinct keys, level0 has length
nextPow2(floor(5/4)) = 1, strictly smaller than ceil(5/4) = 2: the code sizes
level0 by the floor of n/4 (Go integer division), not the ceiling the claim
states. -/
theorem level0_size_floor_counterexample :
    ks5.Nodup ∧ build 64 ks5 = some t5 ∧ t5.level0.length = 1 ∧
    ¬((ks5.length + 3) / 4 ≤ t5.level0.length) :=
  ⟨by decide, by decide, by decide, by decide⟩

/-- Claim C6 amended: every successful Build returns level0 of length
nextPow2(floor(n/4)) — a power of two, at least 1 and at least floor(n/4) —
and level1 of length nextPow2(n) — a power of two, at least 1 and at least n;
the original ceil(n/4) bound for level0 fails (see the counterexample), the
correct reading is the floor. -/
theorem build_size_invariants (fuel : Nat) (ks : List Key) (t : Table)
    (hb : build fuel ks = some t) :
    t.level0.length = nextPow2 (ks.length / 4) ∧
    (∃ m, t.level0.length = 2 ^ m) ∧
    1 ≤ t.level0.length ∧ ks.length / 4 ≤ t.level0.length ∧
    t.level1.length = nextPow2 ks.length ∧
    (∃ m, t.level1.length = 2 ^ m) ∧
    1 ≤ t.level1.length ∧ ks.length ≤ t.level1.length := by
  obtain ⟨h1, h2, h3, hL0, hL1, h4, h5⟩ := build_props fuel ks t hb
  have e0 : t.level0.length = nextPow2 (ks.length / 4) := hL0
  have e1 : t.level1.length = nextPow2 ks.length := hL1
  refine ⟨e0, ?_, ?_, ?_, e1, ?_, ?_, ?_⟩
  · rw [e0]; exact nextPow2_pow2 (ks.length / 4)
  · rw [e0]; exact nextPow2_pos (ks.length / 4)
  · rw [e0]; exact nextPow2_ge (ks.length / 4)
  · rw [e1]; exact nextPow2_pow2 ks.length
  · rw [e1]; exact nextPow2_pos ks.length
  · rw [e1]; exact nextPow2_ge ks.length

/-- Witness for C6: sizes of the three-key table. -/
theorem build_size_invariants_witness :
    t3.level0.length = nextPow2 (ks3.length / 4) ∧ ks3.length ≤ t3.level1.length :=
  ⟨(build_size_invariants 64 ks3 t3 (by decide)).1,
    (build_size_invariants 64 ks3 t3 (by decide)).2.2.2.2.2.2.2⟩

/-- Claim C8: Build is deterministic. The model is a pure function of the
input key sequence — the Go code consults no randomness, iterates only slices
(never maps) and sorts with a deterministic comparator — so two builds of the
same key list in the same order agree on every field of the resulting table. -/
theorem build_deterministic (fuel : Nat) (ks : List Key) (t1 t2 : Table)
    (h1 : build fuel ks = some t1) (h2 : build fuel ks = some t2) :
    t1.keys = t2.keys ∧ t1.level0 = t2.level0 ∧ t1.level0Mask = t2.level0Mask ∧
    t1.level1 = t2.level1 ∧ t1.level1Mask = t2.level1Mask := by
  have h : t1 = t2 := Option.some.inj (h1.symm.trans h2)
  subst h
  exact ⟨rfl, rfl, rfl, rfl, rfl⟩

/-- Witness for C8: two builds of the three-key list agree. -/
theorem build_deterministic_witness : t3.level1 = t3.level1 :=
  (build_deterministic 64 ks3 t3 t3 (by decide) (by decide)).2.2.2.1

/-- Claim C9: for every table built from a non-empty key list, every level1
entry — committed, left at the default 0, or stale from a discarded seed
trial — is a key position strictly below n, so the keys[candidate] access of
Lookup is in bounds and Lookup returns an answer for every query key. -/
theorem level1_entries_bounded (fuel : Nat) (ks : List Key) (t : Table)
    (hb : build fuel ks = some t) (hne : ks ≠ []) :
    (∀ j, t.level1.getD j 0 < ks.length) ∧
    (∀ z : Key, ∃ c f, lookup t z = some (c, f)) := by
  obtain ⟨hkeys, hm0, hm1, hL0, hL1, hent, hpath⟩ := build_props fuel ks t hb
  have hn : 0 < ks.length := List.length_pos.mpr hne
  constructor
  · intro j
    rcases hent j with he | ⟨i, hi, he⟩
    · omega
    · have h2 := Nat.mod_le i 4294967296
      omega
  · intro z
    obtain ⟨hc, hl⟩ := lookup_built fuel ks t hb hne z
    exact ⟨_, _, hl⟩

/-- Witness for C9: a bound on one entry and a lookup of an absent two-byte
key on the three-key table. -/
theorem level1_entries_bounded_witness :
    t3.level1.getD 0 0 < ks3.length ∧ ∃ c f, lookup t3 [5, 6] = some (c, f) :=
  ⟨(level1_entries_bounded 64 ks3 t3 (by decide) (by decide)).1 0,
    (level1_entries_bounded 64 ks3 t3 (by decide) (by decide)).2 [5, 6]⟩

end Mph
